import Mathlib

/-!
Shallow embedding of the measurement-analysis core of the d10frertest
repository: the percentile statistics engine, the binary rate search of
advanced_rfc2544_test.py and comprehensive_network_test.py, the burst
capacity search of rfc2544_extended_test.py, the sequence analyzer of
frer_reliability_test.py, and the dual-path comparator of
frer_comparison_analysis.py.  Floating point values are modelled as exact
rationals.
-/

/-- Truncation toward zero, the semantics of Python int() applied to a
nonnegative or negative exact rational.  For a normalized rational this is
the truncating division of the numerator by the denominator. -/
def pyTrunc (q : ℚ) : ℤ := q.num.tdiv q.den

/-- Python min over a nonempty list (left fold of binary min over the
tail, seeded with the head).  The empty case never arises in the claims;
Python raises there. -/
def pyMin (l : List ℚ) : ℚ :=
  match l with
  | [] => 0
  | a :: xs => xs.foldl min a

/-- Python max over a nonempty list. -/
def pyMax (l : List ℚ) : ℚ :=
  match l with
  | [] => 0
  | a :: xs => xs.foldl max a

/-- Python sorted(data) for rational samples: the ascending stable sort.
Over a linear order any sorted permutation is unique, so the insertion
sort used here produces exactly the list Python produces. -/
def pySorted (l : List ℚ) : List ℚ := List.insertionSort (· ≤ ·) l

/-- RFC2544Test.percentile of advanced_rfc2544_test.py (lines 136-147),
identical to the nested percentile of calculate_stats in
frer_comparison_analysis.py (lines 41-49):
sort ascending, index = (n-1)*percent/100, floor = int(index),
ceil = floor+1; return sorted[floor] when ceil >= n, otherwise
interpolate linearly.  In every use of the claims the list is nonempty
and 0 <= percent <= 100, so the computed indices are in range;
out-of-range indexing is modelled by getD. -/
def percentile (data : List ℚ) (percent : ℚ) : ℚ :=
  let sorted_data := pySorted data
  let n := sorted_data.length
  let index : ℚ := ((n : ℚ) - 1) * percent / 100
  let floor : ℤ := pyTrunc index
  let ceil : ℤ := floor + 1
  if (n : ℤ) ≤ ceil then
    sorted_data.getD floor.toNat 0
  else
    let fraction : ℚ := index - (floor : ℚ)
    sorted_data.getD floor.toNat 0 * (1 - fraction) +
      sorted_data.getD ceil.toNat 0 * fraction

/-- The percentile computation exactly as the spec words it (section 4.1):
the only textual difference from the source is that the spec writes the
mathematical floor where Python writes int(). -/
def percentileSpec (data : List ℚ) (percent : ℚ) : ℚ :=
  let sorted_data := pySorted data
  let n := sorted_data.length
  let index : ℚ := ((n : ℚ) - 1) * percent / 100
  let floor : ℤ := ⌊index⌋
  let ceil : ℤ := floor + 1
  if (n : ℤ) ≤ ceil then
    sorted_data.getD floor.toNat 0
  else
    let fraction : ℚ := index - (floor : ℚ)
    sorted_data.getD floor.toNat 0 * (1 - fraction) +
      sorted_data.getD ceil.toNat 0 * fraction

/-- The linear interpolation that percentile performs, expressed as a
function of the (sorted) sample list and the fractional index
(n-1)*percent/100.  Equals percentile whenever the index is nonnegative. -/
def interpAt (s : List ℚ) (x : ℚ) : ℚ :=
  if (s.length : ℤ) ≤ ⌊x⌋ + 1 then s.getD (⌊x⌋).toNat 0
  else s.getD (⌊x⌋).toNat 0 * (1 - (x - (⌊x⌋ : ℚ))) +
    s.getD (⌊x⌋ + 1).toNat 0 * (x - (⌊x⌋ : ℚ))

theorem pyTrunc_eq_floor (q : ℚ) (h : 0 ≤ q) : pyTrunc q = ⌊q⌋ := by
  rw [pyTrunc, Rat.floor_def, Int.tdiv_eq_ediv]
  · exact Rat.num_nonneg.mpr h
  · exact Int.ofNat_nonneg q.den

theorem pySorted_length (l : List ℚ) : (pySorted l).length = l.length :=
  List.length_insertionSort _ l

theorem pySorted_sorted (l : List ℚ) : (pySorted l).Sorted (· ≤ ·) :=
  List.sorted_insertionSort _ l

theorem pySorted_perm (l : List ℚ) : List.Perm (pySorted l) l :=
  List.perm_insertionSort _ l

theorem percentile_eq_interpAt (data : List ℚ) (p : ℚ) (hne : data ≠ [])
    (hp : 0 ≤ p) :
    percentile data p =
      interpAt (pySorted data) ((((pySorted data).length : ℚ) - 1) * p / 100) := by
  have hlen : 1 ≤ (pySorted data).length := by
    rw [pySorted_length]
    exact List.length_pos.mpr hne
  have hidx : 0 ≤ (((pySorted data).length : ℚ) - 1) * p / 100 := by
    apply div_nonneg _ (by norm_num)
    apply mul_nonneg _ hp
    have : (1 : ℚ) ≤ ((pySorted data).length : ℚ) := by exact_mod_cast hlen
    linarith
  rw [percentile, interpAt]
  simp only [pyTrunc_eq_floor _ hidx]

theorem percentileSpec_eq_interpAt (data : List ℚ) (p : ℚ) :
    percentileSpec data p =
      interpAt (pySorted data) ((((pySorted data).length : ℚ) - 1) * p / 100) := by
  rw [percentileSpec, interpAt]


/-- C3: the percentile function sorts ascending and interpolates exactly as
the spec describes (floor/ceil indexing with linear interpolation, the
last element when ceil runs off the end), and on [1,2,3,4,5] it returns
3.0 at p=50 and 4.6 at p=90. -/
theorem percentile_matches_spec_formula (data : List ℚ) (p : ℚ)
    (hne : data ≠ []) (h0 : 0 ≤ p) (h100 : p ≤ 100) :
    percentile data p = percentileSpec data p ∧
    percentile [1, 2, 3, 4, 5] 50 = 3 ∧
    percentile [1, 2, 3, 4, 5] 90 = 23/5 := by
  refine ⟨?_, ?_, ?_⟩
  · rw [percentile_eq_interpAt data p hne h0, percentileSpec_eq_interpAt]
  · norm_num [percentile, pySorted, pyTrunc, List.insertionSort, List.orderedInsert,
      Int.tdiv]
    norm_num [show (Int.toNat 2) = 2 from rfl, List.getElem_cons_succ,
      List.getElem_cons_zero]
  · norm_num [percentile, pySorted, pyTrunc, List.insertionSort, List.orderedInsert,
      Int.tdiv]
    norm_num [show (Int.toNat 3) = 3 from rfl, show (Int.toNat 4) = 4 from rfl,
      List.getElem_cons_succ, List.getElem_cons_zero]

/-- Witness for C3 at the concrete sample list of the spec. -/
theorem percentile_matches_spec_formula_witness :
    percentile [1, 2, 3, 4, 5] 50 = percentileSpec [1, 2, 3, 4, 5] 50 :=
  (percentile_matches_spec_formula [1, 2, 3, 4, 5] 50 (by simp) (by norm_num)
    (by norm_num)).1

theorem sorted_getD_mono (s : List ℚ) (hs : s.Sorted (· ≤ ·)) {i j : ℕ}
    (hij : i ≤ j) (hj : j < s.length) : s.getD i 0 ≤ s.getD j 0 := by
  have hi : i < s.length := lt_of_le_of_lt hij hj
  rw [List.getD_eq_getElem s 0 hi, List.getD_eq_getElem s 0 hj]
  have := List.Sorted.rel_get_of_le hs (a := ⟨i, hi⟩) (b := ⟨j, hj⟩) hij
  simpa using this

theorem getD_mem (s : List ℚ) {i : ℕ} (hi : i < s.length) : s.getD i 0 ∈ s := by
  rw [List.getD_eq_getElem s 0 hi]
  exact List.getElem_mem hi

theorem foldl_min_le_init (c : ℚ) (l : List ℚ) : l.foldl min c ≤ c := by
  induction l generalizing c with
  | nil => exact le_refl c
  | cons b bs ih => exact le_trans (ih (min c b)) (min_le_left c b)

theorem le_foldl_max_init (c : ℚ) (l : List ℚ) : c ≤ l.foldl max c := by
  induction l generalizing c with
  | nil => exact le_refl c
  | cons b bs ih => exact le_trans (le_max_left c b) (ih (max c b))

theorem foldl_min_le_mem (xs : List ℚ) :
    ∀ a x : ℚ, x ∈ a :: xs → xs.foldl min a ≤ x := by
  induction xs with
  | nil =>
    intro a x hx
    rw [List.mem_singleton] at hx
    simp [hx]
  | cons b bs ih =>
    intro a x hx
    rw [List.foldl_cons]
    rcases List.mem_cons.mp hx with h | h
    · subst h
      exact le_trans (foldl_min_le_init _ bs) (min_le_left x b)
    · rcases List.mem_cons.mp h with h2 | h2
      · subst h2
        exact le_trans (foldl_min_le_init _ bs) (min_le_right a x)
      · exact ih (min a b) x (List.mem_cons_of_mem _ h2)

theorem mem_le_foldl_max (xs : List ℚ) :
    ∀ a x : ℚ, x ∈ a :: xs → x ≤ xs.foldl max a := by
  induction xs with
  | nil =>
    intro a x hx
    rw [List.mem_singleton] at hx
    simp [hx]
  | cons b bs ih =>
    intro a x hx
    rw [List.foldl_cons]
    rcases List.mem_cons.mp hx with h | h
    · subst h
      exact le_trans (le_max_left x b) (le_foldl_max_init _ bs)
    · rcases List.mem_cons.mp h with h2 | h2
      · subst h2
        exact le_trans (le_max_right a x) (le_foldl_max_init _ bs)
      · exact ih (max a b) x (List.mem_cons_of_mem _ h2)

theorem pyMin_le_mem {l : List ℚ} {x : ℚ} (hx : x ∈ l) : pyMin l ≤ x := by
  match l with
  | [] => cases hx
  | a :: xs => exact foldl_min_le_mem xs a x hx

theorem mem_le_pyMax {l : List ℚ} {x : ℚ} (hx : x ∈ l) : x ≤ pyMax l := by
  match l with
  | [] => cases hx
  | a :: xs => exact mem_le_foldl_max xs a x hx

theorem getD_floor_le_interpAt (s : List ℚ) (hs : s.Sorted (· ≤ ·)) {x : ℚ}
    (hx0 : 0 ≤ x) : s.getD (⌊x⌋).toNat 0 ≤ interpAt s x := by
  have hfx0 : 0 ≤ ⌊x⌋ := Int.floor_nonneg.mpr hx0
  have ht0 : 0 ≤ x - (⌊x⌋ : ℚ) := sub_nonneg.mpr (Int.floor_le x)
  have ht1 : x - (⌊x⌋ : ℚ) < 1 := by
    have := Int.lt_floor_add_one x
    push_cast at this ⊢
    linarith
  rw [interpAt]
  split
  · exact le_refl _
  · rename_i hcond
    push_neg at hcond
    have hsucc : (⌊x⌋ + 1).toNat = (⌊x⌋).toNat + 1 := by omega
    have hlt : (⌊x⌋).toNat + 1 < s.length := by omega
    have hab : s.getD (⌊x⌋).toNat 0 ≤ s.getD ((⌊x⌋).toNat + 1) 0 :=
      sorted_getD_mono s hs (Nat.le_succ _) hlt
    rw [hsucc]
    nlinarith [mul_nonneg ht0 (sub_nonneg.mpr hab)]

theorem interpAt_le_getD_succ (s : List ℚ) (hs : s.Sorted (· ≤ ·)) {x : ℚ}
    (hx0 : 0 ≤ x) (h : ⌊x⌋ + 1 < (s.length : ℤ)) :
    interpAt s x ≤ s.getD ((⌊x⌋).toNat + 1) 0 := by
  have hfx0 : 0 ≤ ⌊x⌋ := Int.floor_nonneg.mpr hx0
  have ht0 : 0 ≤ x - (⌊x⌋ : ℚ) := sub_nonneg.mpr (Int.floor_le x)
  have ht1 : x - (⌊x⌋ : ℚ) < 1 := by
    have := Int.lt_floor_add_one x
    push_cast at this ⊢
    linarith
  rw [interpAt, if_neg (by omega)]
  have hsucc : (⌊x⌋ + 1).toNat = (⌊x⌋).toNat + 1 := by omega
  have hlt : (⌊x⌋).toNat + 1 < s.length := by omega
  have hab : s.getD (⌊x⌋).toNat 0 ≤ s.getD ((⌊x⌋).toNat + 1) 0 :=
    sorted_getD_mono s hs (Nat.le_succ _) hlt
  rw [hsucc]
  nlinarith [mul_nonneg (sub_nonneg.mpr (le_of_lt ht1)) (sub_nonneg.mpr hab)]

theorem interpAt_le_getD_last (s : List ℚ) (hs : s.Sorted (· ≤ ·))
    (hn : 1 ≤ s.length) {x : ℚ} (hx0 : 0 ≤ x)
    (hx1 : x ≤ (s.length : ℚ) - 1) : interpAt s x ≤ s.getD (s.length - 1) 0 := by
  have hfx0 : 0 ≤ ⌊x⌋ := Int.floor_nonneg.mpr hx0
  have hfx1 : ⌊x⌋ ≤ (s.length : ℤ) - 1 := by
    have h1 : x ≤ (((s.length : ℤ) - 1 : ℤ) : ℚ) := by push_cast; linarith
    have := Int.floor_le_floor h1
    rwa [Int.floor_intCast] at this
  by_cases hcase : (s.length : ℤ) ≤ ⌊x⌋ + 1
  · rw [interpAt, if_pos hcase]
    have : (⌊x⌋).toNat = s.length - 1 := by omega
    rw [this]
  · push_neg at hcase
    refine le_trans (interpAt_le_getD_succ s hs hx0 hcase) ?_
    exact sorted_getD_mono s hs (by omega) (by omega)

theorem interpAt_mono (s : List ℚ) (hs : s.Sorted (· ≤ ·)) {x y : ℚ}
    (hx0 : 0 ≤ x) (hxy : x ≤ y) (hy1 : y ≤ (s.length : ℚ) - 1) :
    interpAt s x ≤ interpAt s y := by
  have hy0 : 0 ≤ y := le_trans hx0 hxy
  have hfy1 : ⌊y⌋ ≤ (s.length : ℤ) - 1 := by
    have h1 : y ≤ (((s.length : ℤ) - 1 : ℤ) : ℚ) := by push_cast; linarith
    have := Int.floor_le_floor h1
    rwa [Int.floor_intCast] at this
  have hfx0 : 0 ≤ ⌊x⌋ := Int.floor_nonneg.mpr hx0
  have hff : ⌊x⌋ ≤ ⌊y⌋ := Int.floor_le_floor hxy
  rcases lt_or_eq_of_le hff with hlt | heq
  · have hcond : ⌊x⌋ + 1 < (s.length : ℤ) := by omega
    refine le_trans (interpAt_le_getD_succ s hs hx0 hcond) ?_
    refine le_trans ?_ (getD_floor_le_interpAt s hs hy0)
    exact sorted_getD_mono s hs (by omega) (by omega)
  · have htx0 : 0 ≤ x - (⌊x⌋ : ℚ) := sub_nonneg.mpr (Int.floor_le x)
    have hty1 : y - (⌊y⌋ : ℚ) < 1 := by
      have := Int.lt_floor_add_one y
      push_cast at this ⊢
      linarith
    rw [interpAt, interpAt, heq]
    split
    · exact le_refl _
    · rename_i hcond
      push_neg at hcond
      have hsucc : (⌊y⌋ + 1).toNat = (⌊y⌋).toNat + 1 := by
        have : 0 ≤ ⌊y⌋ := heq ▸ hfx0
        omega
      have hlt2 : (⌊y⌋).toNat + 1 < s.length := by
        have : 0 ≤ ⌊y⌋ := heq ▸ hfx0
        omega
      have hab : s.getD (⌊y⌋).toNat 0 ≤ s.getD ((⌊y⌋).toNat + 1) 0 :=
        sorted_getD_mono s hs (Nat.le_succ _) hlt2
      rw [hsucc]
      have hts : x - (⌊y⌋ : ℚ) ≤ y - (⌊y⌋ : ℚ) := by linarith
      nlinarith [mul_nonneg (sub_nonneg.mpr hts) (sub_nonneg.mpr hab)]

theorem percentile_index_nonneg (n : ℕ) (hn : 1 ≤ n) {p : ℚ} (hp : 0 ≤ p) :
    0 ≤ ((n : ℚ) - 1) * p / 100 := by
  have : (1 : ℚ) ≤ (n : ℚ) := by exact_mod_cast hn
  exact div_nonneg (mul_nonneg (by linarith) hp) (by norm_num)

theorem percentile_index_le (n : ℕ) (hn : 1 ≤ n) {p : ℚ} (hp : p ≤ 100) :
    ((n : ℚ) - 1) * p / 100 ≤ (n : ℚ) - 1 := by
  have h1 : (1 : ℚ) ≤ (n : ℚ) := by exact_mod_cast hn
  nlinarith

theorem pyMin_le_percentile (l : List ℚ) {p : ℚ} (hne : l ≠ [])
    (hp0 : 0 ≤ p) (hp1 : p ≤ 100) : pyMin l ≤ percentile l p := by
  rw [percentile_eq_interpAt l p hne hp0]
  have hlen : 1 ≤ (pySorted l).length := by
    rw [pySorted_length]
    exact List.length_pos.mpr hne
  set s := pySorted l with hsdef
  set x := ((s.length : ℚ) - 1) * p / 100 with hxdef
  have hx0 : 0 ≤ x := percentile_index_nonneg s.length hlen hp0
  have hx1 : x ≤ (s.length : ℚ) - 1 := percentile_index_le s.length hlen hp1
  have hfl : (⌊x⌋).toNat < s.length := by
    have h1 : x ≤ (((s.length : ℤ) - 1 : ℤ) : ℚ) := by push_cast; linarith
    have h2 := Int.floor_le_floor h1
    rw [Int.floor_intCast] at h2
    have h3 : 0 ≤ ⌊x⌋ := Int.floor_nonneg.mpr hx0
    omega
  refine le_trans ?_ (getD_floor_le_interpAt s (pySorted_sorted l) hx0)
  exact pyMin_le_mem ((pySorted_perm l).mem_iff.mp (getD_mem s hfl))

theorem percentile_le_pyMax (l : List ℚ) {p : ℚ} (hne : l ≠ [])
    (hp0 : 0 ≤ p) (hp1 : p ≤ 100) : percentile l p ≤ pyMax l := by
  rw [percentile_eq_interpAt l p hne hp0]
  have hlen : 1 ≤ (pySorted l).length := by
    rw [pySorted_length]
    exact List.length_pos.mpr hne
  set s := pySorted l with hsdef
  set x := ((s.length : ℚ) - 1) * p / 100 with hxdef
  have hx0 : 0 ≤ x := percentile_index_nonneg s.length hlen hp0
  have hx1 : x ≤ (s.length : ℚ) - 1 := percentile_index_le s.length hlen hp1
  refine le_trans (interpAt_le_getD_last s (pySorted_sorted l) hlen hx0 hx1) ?_
  exact mem_le_pyMax ((pySorted_perm l).mem_iff.mp (getD_mem s (by omega)))

theorem percentile_mono (l : List ℚ) {p q : ℚ} (hne : l ≠ [])
    (hp0 : 0 ≤ p) (hpq : p ≤ q) (hq1 : q ≤ 100) :
    percentile l p ≤ percentile l q := by
  have hq0 : 0 ≤ q := le_trans hp0 hpq
  rw [percentile_eq_interpAt l p hne hp0, percentile_eq_interpAt l q hne hq0]
  have hlen : 1 ≤ (pySorted l).length := by
    rw [pySorted_length]
    exact List.length_pos.mpr hne
  have h1 : (1 : ℚ) ≤ ((pySorted l).length : ℚ) := by exact_mod_cast hlen
  refine interpAt_mono (pySorted l) (pySorted_sorted l)
    (percentile_index_nonneg _ hlen hp0) ?_
    (percentile_index_le _ hlen hq1)
  have : (0 : ℚ) ≤ ((pySorted l).length : ℚ) - 1 := by linarith
  gcongr

/-- C7: for every nonempty sample list the percentile family is ordered:
min <= p50 <= p90 <= p95 <= p99 <= p99.9 <= max, where the percentile
fields are those computed by calculate_stats and RFC2544Test. -/
theorem percentile_chain_ordered (l : List ℚ) (hne : l ≠ []) :
    pyMin l ≤ percentile l 50 ∧
    percentile l 50 ≤ percentile l 90 ∧
    percentile l 90 ≤ percentile l 95 ∧
    percentile l 95 ≤ percentile l 99 ∧
    percentile l 99 ≤ percentile l (999/10) ∧
    percentile l (999/10) ≤ pyMax l := by
  refine ⟨pyMin_le_percentile l hne (by norm_num) (by norm_num),
    percentile_mono l hne (by norm_num) (by norm_num) (by norm_num),
    percentile_mono l hne (by norm_num) (by norm_num) (by norm_num),
    percentile_mono l hne (by norm_num) (by norm_num) (by norm_num),
    percentile_mono l hne (by norm_num) (by norm_num) (by norm_num),
    percentile_le_pyMax l hne (by norm_num) (by norm_num)⟩

/-- Witness for C7 at a concrete sample list. -/
theorem percentile_chain_ordered_witness :
    pyMin [3, 1, 4, 1, 5] ≤ percentile [3, 1, 4, 1, 5] 50 ∧
    percentile [3, 1, 4, 1, 5] 50 ≤ percentile [3, 1, 4, 1, 5] 90 ∧
    percentile [3, 1, 4, 1, 5] 90 ≤ percentile [3, 1, 4, 1, 5] 95 ∧
    percentile [3, 1, 4, 1, 5] 95 ≤ percentile [3, 1, 4, 1, 5] 99 ∧
    percentile [3, 1, 4, 1, 5] 99 ≤ percentile [3, 1, 4, 1, 5] (999/10) ∧
    percentile [3, 1, 4, 1, 5] (999/10) ≤ pyMax [3, 1, 4, 1, 5] :=
  percentile_chain_ordered [3, 1, 4, 1, 5] (by simp)

/-!
Rate search engines.  advanced_rfc2544_test.py, binary_search_throughput
(lines 200-248): while (max-min)/max > tolerance and iterations < 20,
probe the midpoint; a failed probe (None) shrinks the upper bound; a loss
below 0.001 moves the lower bound and best_throughput to the midpoint;
otherwise the upper bound moves to the midpoint.
comprehensive_network_test.py, test_rfc2544_throughput (lines 202-244):
for up to 10 iterations, probe the midpoint; on a parse failure record an
error entry and continue with bounds and best unchanged; otherwise update
bounds and best, then break once (max-min)/max < tolerance.
A probe is modelled as a function from offered rate to Option loss
(none is a failed invocation).
-/

structure SearchState where
  low : ℚ
  high : ℚ
  best : ℚ
  iters : ℕ
deriving DecidableEq, Repr

/-- The midpoint rate probed from a state. -/
def midRate (s : SearchState) : ℚ := (s.low + s.high) / 2

/-- One iteration of binary_search_throughput: none means the while guard
fails and the loop has exited. -/
def advStep (probe : ℚ → Option ℚ) (s : SearchState) : Option SearchState :=
  if (s.high - s.low) / s.high > 1/100 ∧ s.iters < 20 then
    some (match probe (midRate s) with
      | none => { s with high := midRate s, iters := s.iters + 1 }
      | some loss =>
        if loss < 1/1000 then
          { s with low := midRate s, best := midRate s, iters := s.iters + 1 }
        else
          { s with high := midRate s, iters := s.iters + 1 })
  else none

/-- The states visited after each executed iteration, bounded by fuel. -/
def advGo (probe : ℚ → Option ℚ) : ℕ → SearchState → List SearchState
  | 0, _ => []
  | fuel + 1, s =>
    match advStep probe s with
    | none => []
    | some s2 => s2 :: advGo probe fuel s2

/-- The initial state of binary_search_throughput: min 1 Mbps, max 1000
Mbps, best_throughput 0, no iterations executed. -/
def advInit : SearchState := { low := 1, high := 1000, best := 0, iters := 0 }

/-- The full trace of states of a binary_search_throughput run, initial
state included.  Twenty-one units of fuel dominate the 20-iteration cap,
so the trace is the complete run. -/
def advRun (probe : ℚ → Option ℚ) : List SearchState :=
  advInit :: advGo probe 21 advInit

/-- One iteration of the comprehensive engine produces the post-iteration
state and whether the loop keeps going afterwards. -/
def compGo (probe : ℚ → Option ℚ) : ℕ → SearchState → List SearchState
  | 0, _ => []
  | fuel + 1, s =>
    match probe (midRate s) with
    | none => s :: compGo probe fuel s
    | some loss =>
      let s2 : SearchState :=
        if loss < 1/1000 then { s with low := midRate s, best := midRate s }
        else { s with high := midRate s }
      if (s2.high - s2.low) / s2.high < 1/100 then [s2]
      else s2 :: compGo probe fuel s2

/-- The initial state of test_rfc2544_throughput for one frame size. -/
def compInit : SearchState := { low := 1, high := 1000, best := 0, iters := 0 }

/-- The full trace of the comprehensive throughput search: the initial
state followed by the state after each of the at most 10 iterations. -/
def compRun (probe : ℚ → Option ℚ) : List SearchState :=
  compInit :: compGo probe 10 compInit

/-- A probe whose invocation always fails. -/
def probeFail : ℚ → Option ℚ := fun _ => none

/-- A probe that always succeeds with zero loss. -/
def probeZero : ℚ → Option ℚ := fun _ => some 0

/-- The state invariant the rate searches actually maintain. -/
def SearchInv (s : SearchState) : Prop :=
  s.best ≤ s.low ∧ s.low ≤ s.high ∧ 0 ≤ s.best

theorem midRate_between {s : SearchState} (h : s.low ≤ s.high) :
    s.low ≤ midRate s ∧ midRate s ≤ s.high := by
  rw [midRate]
  constructor <;> linarith

theorem advStep_inv {probe : ℚ → Option ℚ} {s s2 : SearchState}
    (hinv : SearchInv s) (h : advStep probe s = some s2) :
    SearchInv s2 ∧ s.best ≤ s2.best := by
  obtain ⟨h1, h2, h3⟩ := hinv
  obtain ⟨hmid1, hmid2⟩ := midRate_between h2
  rw [advStep] at h
  split at h
  · injection h with h
    subst h
    rcases hp : probe (midRate s) with _ | loss <;> dsimp only
    · refine ⟨⟨?_, ?_, ?_⟩, ?_⟩ <;> dsimp <;> linarith
    · split
      · refine ⟨⟨?_, ?_, ?_⟩, ?_⟩ <;> dsimp <;> linarith
      · refine ⟨⟨?_, ?_, ?_⟩, ?_⟩ <;> dsimp <;> linarith
  · exact absurd h (by simp)

theorem advGo_inv (probe : ℚ → Option ℚ) :
    ∀ (fuel : ℕ) (s : SearchState), SearchInv s →
      (∀ x ∈ advGo probe fuel s, SearchInv x) ∧
      List.Chain' (fun a b => a.best ≤ b.best) (s :: advGo probe fuel s) := by
  intro fuel
  induction fuel with
  | zero => intro s _; simp [advGo]
  | succ n ih =>
    intro s hs
    rw [advGo]
    rcases h : advStep probe s with _ | s2
    · simp
    · obtain ⟨hs2, hbest⟩ := advStep_inv hs h
      obtain ⟨hmem, hchain⟩ := ih s2 hs2
      refine ⟨?_, ?_⟩
      · intro x hx
        rcases List.mem_cons.mp hx with h2 | h2
        · exact h2 ▸ hs2
        · exact hmem x h2
      · exact List.chain'_cons.mpr ⟨hbest, hchain⟩

theorem compGo_inv (probe : ℚ → Option ℚ) :
    ∀ (fuel : ℕ) (s : SearchState), SearchInv s →
      (∀ x ∈ compGo probe fuel s, SearchInv x) ∧
      List.Chain' (fun a b => a.best ≤ b.best) (s :: compGo probe fuel s) := by
  intro fuel
  induction fuel with
  | zero => intro s _; simp [compGo]
  | succ n ih =>
    intro s hs
    obtain ⟨h1, h2, h3⟩ := hs
    obtain ⟨hmid1, hmid2⟩ := midRate_between h2
    rw [compGo]
    rcases hp : probe (midRate s) with _ | loss <;> dsimp only
    · obtain ⟨hmem, hchain⟩ := ih s ⟨h1, h2, h3⟩
      refine ⟨?_, List.chain'_cons.mpr ⟨le_refl _, hchain⟩⟩
      intro x hx
      rcases List.mem_cons.mp hx with hx2 | hx2
      · exact hx2 ▸ ⟨h1, h2, h3⟩
      · exact hmem x hx2
    · have hs2 : SearchInv (if loss < 1/1000 then
          { s with low := midRate s, best := midRate s }
          else { s with high := midRate s }) ∧
          s.best ≤ (if loss < 1/1000 then
          { s with low := midRate s, best := midRate s }
          else { s with high := midRate s }).best := by
        split
        · refine ⟨⟨?_, ?_, ?_⟩, ?_⟩ <;> dsimp <;> linarith
        · refine ⟨⟨?_, ?_, ?_⟩, ?_⟩ <;> dsimp <;> linarith
      set s2 := if loss < 1/1000 then
          { s with low := midRate s, best := midRate s }
          else { s with high := midRate s } with hs2def
      obtain ⟨hinv2, hbest2⟩ := hs2
      split
      · exact ⟨by
          intro x hx
          rw [List.mem_singleton] at hx
          exact hx ▸ hinv2,
          List.chain'_cons.mpr ⟨hbest2, List.chain'_singleton s2⟩⟩
      · obtain ⟨hmem, hchain⟩ := ih s2 hinv2
        refine ⟨?_, List.chain'_cons.mpr ⟨hbest2, hchain⟩⟩
        intro x hx
        rcases List.mem_cons.mp hx with hx2 | hx2
        · exact hx2 ▸ hinv2
        · exact hmem x hx2

/-- C2 counterexample: the very first state of a run (also every state of
an all-failures run) has best_known = 0 strictly below low = 1, so
low <= best_known <= high does not hold at all times. -/
theorem rate_search_low_le_best_fails :
    advInit ∈ advRun probeFail ∧ ¬ (advInit.low ≤ advInit.best) := by
  constructor
  · exact List.mem_cons_self _ _
  · norm_num [advInit]

/-- C2 amended: throughout every run of either rate search the state
satisfies best_known <= low <= high (so in particular
best_known <= high), best_known stays nonnegative, and best_known never
decreases from one iteration to the next. -/
theorem rate_search_invariant (probe : ℚ → Option ℚ) :
    (∀ s ∈ advRun probe, s.best ≤ s.low ∧ s.low ≤ s.high ∧ 0 ≤ s.best) ∧
    List.Chain' (fun a b => a.best ≤ b.best) (advRun probe) ∧
    (∀ s ∈ compRun probe, s.best ≤ s.low ∧ s.low ≤ s.high ∧ 0 ≤ s.best) ∧
    List.Chain' (fun a b => a.best ≤ b.best) (compRun probe) := by
  have hinit : SearchInv advInit := by
    refine ⟨?_, ?_, ?_⟩ <;> norm_num [advInit]
  have hinitc : SearchInv compInit := by
    refine ⟨?_, ?_, ?_⟩ <;> norm_num [compInit]
  obtain ⟨hmem, hchain⟩ := advGo_inv probe 21 advInit hinit
  obtain ⟨hmemc, hchainc⟩ := compGo_inv probe 10 compInit hinitc
  refine ⟨?_, hchain, ?_, hchainc⟩
  · intro s hs
    rcases List.mem_cons.mp hs with h | h
    · exact h ▸ hinit
    · exact hmem s h
  · intro s hs
    rcases List.mem_cons.mp hs with h | h
    · exact h ▸ hinitc
    · exact hmemc s h

/-- C1 counterexample: in the comprehensive engine a failed probe does not
shrink the upper bound to the midpoint just probed; with a probe that
always fails, the state after the first iteration still has high = 1000,
not the probed midpoint 500.5. -/
theorem comp_failure_keeps_bounds :
    (compRun probeFail).getD 1 advInit = compInit ∧
    compInit.high ≠ midRate compInit := by
  constructor
  · rfl
  · norm_num [compInit, midRate]

/-- C1 amended: in binary_search_throughput a failed probe shrinks the
upper bound to the probed midpoint and leaves best_throughput untouched;
in the comprehensive engine a failed probe leaves bounds and best
unchanged and the loop simply continues; in the advanced engine best is
only ever updated by a probe that returned a loss below the threshold, so
a failed trial is never recorded as a passing rate. -/
theorem probe_failure_handling (probe : ℚ → Option ℚ) (s : SearchState)
    (fuel : ℕ) :
    (probe (midRate s) = none →
      ((s.high - s.low) / s.high > 1/100 ∧ s.iters < 20 →
        advStep probe s = some { s with high := midRate s, iters := s.iters + 1 }) ∧
      compGo probe (fuel + 1) s = s :: compGo probe fuel s) ∧
    (∀ s2, advStep probe s = some s2 →
      s2.best = s.best ∨
        ∃ loss, probe (midRate s) = some loss ∧ loss < 1/1000 ∧
          s2.best = midRate s) := by
  constructor
  · intro hfail
    constructor
    · intro hguard
      rw [advStep, if_pos hguard, hfail]
    · rw [compGo, hfail]
  · intro s2 h
    rw [advStep] at h
    split at h
    · injection h with h
      subst h
      rcases hp : probe (midRate s) with _ | loss <;> dsimp only
      · exact Or.inl rfl
      · split
        · rename_i hl
          exact Or.inr ⟨loss, rfl, hl, rfl⟩
        · exact Or.inl rfl
    · exact absurd h (by simp)

/-- Witness for C1 amended: the all-failing probe at the initial state of
binary_search_throughput shrinks high to the midpoint 500.5. -/
theorem probe_failure_handling_witness :
    advStep probeFail advInit =
      some { advInit with high := midRate advInit, iters := advInit.iters + 1 } :=
  (((probe_failure_handling probeFail advInit 5).1 rfl).1)
    (by constructor <;> norm_num [advInit])

/-- C8 counterexample: the loop guard is (high-low)/high > tolerance, so
the loop also stops when (high-low)/high equals the tolerance exactly.
At low = 99, high = 100 the ratio is exactly 1/100: the loop has
terminated although (high-low)/high < tolerance is false and the
iteration count 0 is below max_iterations. -/
theorem adv_guard_boundary :
    advStep probeZero { low := 99, high := 100, best := 42, iters := 0 } = none ∧
    ¬ (((100 : ℚ) - 99) / 100 < 1/100) ∧ (0 : ℕ) < 20 := by
  refine ⟨?_, by norm_num, by norm_num⟩
  rw [advStep, if_neg]
  intro h
  have := h.1
  norm_num at this

/-- C8 amended: with a probe that never fails, every executed iteration of
binary_search_throughput halves the window (setting either low or high to
the probed midpoint) and increments the iteration count, and the loop has
terminated exactly when (high-low)/high <= tolerance or the iteration
count has reached max_iterations = 20, whichever comes first. -/
theorem adv_step_halves_and_guard (probe : ℚ → Option ℚ)
    (hp : ∀ r, (probe r).isSome) (s : SearchState) :
    (∀ s2, advStep probe s = some s2 →
      s2.high - s2.low = (s.high - s.low) / 2 ∧ s2.iters = s.iters + 1 ∧
      ((s2.low = s.low ∧ s2.high = midRate s) ∨
        (s2.low = midRate s ∧ s2.high = s.high))) ∧
    (advStep probe s = none ↔
      (s.high - s.low) / s.high ≤ 1/100 ∨ 20 ≤ s.iters) := by
  constructor
  · intro s2 h
    rw [advStep] at h
    split at h
    · injection h with h
      subst h
      rcases hp2 : probe (midRate s) with _ | loss <;> dsimp only
      · have := hp (midRate s)
        rw [hp2] at this
        cases this
      · split
        · refine ⟨?_, rfl, Or.inr ⟨rfl, rfl⟩⟩
          dsimp
          rw [midRate]
          ring
        · refine ⟨?_, rfl, Or.inl ⟨rfl, rfl⟩⟩
          dsimp
          rw [midRate]
          ring
    · exact absurd h (by simp)
  · rw [advStep]
    split
    · rename_i hguard
      constructor
      · intro h
        exact absurd h (by simp)
      · intro h
        rcases h with h | h
        · exact absurd hguard.1 (not_lt.mpr h)
        · exact absurd hguard.2 (not_lt.mpr h)
    · rename_i hguard
      rw [not_and_or, not_lt, not_lt] at hguard
      simp only [true_iff]
      exact hguard

/-- Witness for C8 amended: stepping the never-failing zero-loss probe
from the initial state halves the window from 999 to 999/2. -/
theorem adv_step_halves_and_guard_witness :
    (advStep probeZero advInit = none ↔
      (advInit.high - advInit.low) / advInit.high ≤ 1/100 ∨ 20 ≤ advInit.iters) :=
  (adv_step_halves_and_guard probeZero (fun _ => rfl) advInit).2

/-!
Sequence analyzer: FRERTest.analyze_pcap of frer_reliability_test.py
(lines 194-232).  A captured packet is modelled as Option (List ℕ): none
when the frame carries no Raw payload, otherwise the payload bytes.  A
payload is analyzed when it is at least 8 bytes long and starts with the
FRER tag bytes 0xf1 0xc1; then bytes 2-3 are the big-endian stream id and
bytes 4-7 the big-endian sequence number.  The struct.unpack of 8 bytes
from a buffer already checked to hold at least 8 bytes cannot fail, so
the except arm around it is dead and is not modelled.
-/

/-- A captured frame: none when the scapy packet has no Raw layer. -/
def FrerPacket := Option (List ℕ)

/-- The analyzed test of analyze_pcap: payload of length at least 8
starting with the two tag bytes 0xf1 0xc1. -/
def frerTagged (payload : List ℕ) : Prop :=
  8 ≤ payload.length ∧ payload.take 2 = [241, 193]

instance (payload : List ℕ) : Decidable (frerTagged payload) := by
  rw [frerTagged]
  infer_instance

/-- Big-endian 16-bit stream id from bytes 2-3 of the payload. -/
def streamIdOf (payload : List ℕ) : ℕ :=
  payload.getD 2 0 * 256 + payload.getD 3 0

/-- Big-endian 32-bit sequence number from bytes 4-7 of the payload. -/
def seqNumOf (payload : List ℕ) : ℕ :=
  ((payload.getD 4 0 * 256 + payload.getD 5 0) * 256 + payload.getD 6 0) * 256 +
    payload.getD 7 0

/-- The mutable loop state of analyze_pcap. -/
structure AnalyzerState where
  seen : Finset ℕ
  dups : ℕ
  ooo : ℕ
  prev : ℤ
deriving DecidableEq

/-- One loop iteration of analyze_pcap over one captured packet.
Untagged or Raw-less packets leave the state untouched. -/
def analyzeStep (st : AnalyzerState) (pkt : FrerPacket) : AnalyzerState :=
  match pkt with
  | none => st
  | some payload =>
    if frerTagged payload then
      let sq := seqNumOf payload
      let st1 :=
        if sq ∈ st.seen then { st with dups := st.dups + 1 }
        else { st with seen := insert sq st.seen }
      let st2 :=
        if (sq : ℤ) < st.prev then { st1 with ooo := st1.ooo + 1 } else st1
      { st2 with prev := (sq : ℤ) }
    else st

/-- The initial analyzer state: empty seen set, zero counters,
prev_seq = -1. -/
def analyzerInit : AnalyzerState := { seen := ∅, dups := 0, ooo := 0, prev := -1 }

/-- The loop of analyze_pcap over the captured packet list. -/
def analyzePackets (pkts : List FrerPacket) : AnalyzerState :=
  pkts.foldl analyzeStep analyzerInit

/-- Whether a packet is analyzed (counted) by analyze_pcap. -/
def analyzedPacket (pkt : FrerPacket) : Bool :=
  match pkt with
  | none => false
  | some payload => decide (frerTagged payload)

theorem analyzeStep_card (st : AnalyzerState) (pkt : FrerPacket) :
    (analyzeStep st pkt).seen.card + (analyzeStep st pkt).dups =
      st.seen.card + st.dups + (if analyzedPacket pkt then 1 else 0) := by
  rcases pkt with _ | payload
  · simp [analyzeStep, analyzedPacket]
  · rw [analyzeStep, analyzedPacket]
    by_cases htag : frerTagged payload
    · rw [if_pos htag, if_pos (by simpa using htag)]
      dsimp only
      by_cases hmem : seqNumOf payload ∈ st.seen
      · rw [if_pos hmem]
        split <;> dsimp <;> omega
      · rw [if_neg hmem]
        split <;> dsimp <;> rw [Finset.card_insert_of_not_mem hmem] <;> omega
    · rw [if_neg htag, if_neg (by simpa using htag)]
      simp

theorem analyzePackets_card_aux (pkts : List FrerPacket) :
    ∀ st : AnalyzerState,
      (pkts.foldl analyzeStep st).seen.card + (pkts.foldl analyzeStep st).dups =
        st.seen.card + st.dups + (pkts.filter analyzedPacket).length := by
  induction pkts with
  | nil => intro st; simp
  | cons p ps ih =>
    intro st
    rw [List.foldl_cons, ih (analyzeStep st p), analyzeStep_card]
    rw [List.filter_cons]
    split <;> simp <;> omega

/-- C4: in every analysis result, unique + duplicates equals the number of
analyzed frames (those carrying a well-formed FRER tag), and a malformed
or untagged packet is skipped, leaving the analyzer state untouched
rather than aborting the analysis. -/
theorem analysis_counts_consistent (pkts : List FrerPacket) (pkt : FrerPacket)
    (st : AnalyzerState) (h : analyzedPacket pkt = false) :
    (analyzePackets pkts).seen.card + (analyzePackets pkts).dups =
      (pkts.filter analyzedPacket).length ∧
    analyzeStep st pkt = st := by
  constructor
  · have := analyzePackets_card_aux pkts analyzerInit
    simpa [analyzePackets, analyzerInit] using this
  · rcases pkt with _ | payload
    · rfl
    · rw [analyzedPacket] at h
      rw [analyzeStep, if_neg (by simpa using h)]

/-- Witness for C4: one tagged frame followed by an untagged frame. -/
theorem analysis_counts_consistent_witness :
    (analyzePackets [some [241, 193, 0, 1, 0, 0, 0, 5], none]).seen.card +
      (analyzePackets [some [241, 193, 0, 1, 0, 0, 0, 5], none]).dups =
      ([some [241, 193, 0, 1, 0, 0, 0, 5], none].filter analyzedPacket).length ∧
    analyzeStep analyzerInit none = analyzerInit :=
  analysis_counts_consistent [some [241, 193, 0, 1, 0, 0, 0, 5], none] none
    analyzerInit rfl

/-- C10: duplicate classification depends only on the sequence number:
two well-formed records with equal sequence numbers but different stream
ids are still counted as one unique frame plus one duplicate, because the
seen-set membership test uses only seq_num. -/
theorem duplicate_ignores_stream_id (b1 b2 : List ℕ) (h1 : frerTagged b1)
    (h2 : frerTagged b2) (hseq : seqNumOf b1 = seqNumOf b2)
    (hstream : streamIdOf b1 ≠ streamIdOf b2) :
    (analyzePackets [some b1, some b2]).dups = 1 ∧
    (analyzePackets [some b1, some b2]).seen.card = 1 := by
  have hlt : ¬ ((seqNumOf b1 : ℤ) < (-1 : ℤ)) := by omega
  have hlt2 : ¬ ((seqNumOf b2 : ℤ) < (seqNumOf b1 : ℤ)) := by
    rw [hseq]
    exact lt_irrefl _
  simp only [analyzePackets, List.foldl_cons, List.foldl_nil, analyzeStep,
    analyzerInit, if_pos h1, if_pos h2]
  simp only [Finset.not_mem_empty, if_false, if_neg hlt]
  simp only [insert_emptyc_eq, Finset.mem_singleton, ← hseq, if_pos rfl,
    if_neg hlt2]
  simp

/-- Witness for C10: same sequence number 5 on stream ids 1 and 2. -/
theorem duplicate_ignores_stream_id_witness :
    (analyzePackets
      [some [241, 193, 0, 1, 0, 0, 0, 5], some [241, 193, 0, 2, 0, 0, 0, 5]]).dups
        = 1 ∧
    (analyzePackets
      [some [241, 193, 0, 1, 0, 0, 0, 5], some [241, 193, 0, 2, 0, 0, 0, 5]]).seen.card
        = 1 :=
  duplicate_ignores_stream_id _ _ (by constructor <;> decide) (by constructor <;> decide)
    (by decide) (by decide)

/-!
Dual-path comparator: calculate_frer_latencies of
frer_comparison_analysis.py (lines 33-37) zips the two per-path latency
sequences and takes the per-index minimum; Python zip silently truncates
to the shorter sequence.
-/

/-- calculate_frer_latencies: FRER selects the minimum of the two paths,
pairing samples with zip. -/
def calculate_frer_latencies (path1 path2 : List ℚ) : List ℚ :=
  List.zipWith (fun p1 p2 => min p1 p2) path1 path2

/-- C5 counterexample: comparing sequences of lengths 3 and 1 does not
fail; it silently produces the one-element comparison [min 1 4]. -/
theorem frer_latencies_no_length_check :
    calculate_frer_latencies [1, 2, 3] [4] = [1] := by
  rw [calculate_frer_latencies]
  norm_num

/-- C5 amended: on sequences of unequal length the comparator does not
fail; zip truncates to the shorter input, so the result has length
min(len1,len2) and entry i is the minimum of the two samples at i. -/
theorem frer_latencies_truncates (path1 path2 : List ℚ) (i : ℕ)
    (h : i < min path1.length path2.length) :
    (calculate_frer_latencies path1 path2).length =
      min path1.length path2.length ∧
    (calculate_frer_latencies path1 path2).getD i 0 =
      min (path1.getD i 0) (path2.getD i 0) := by
  have hlen : (calculate_frer_latencies path1 path2).length =
      min path1.length path2.length := by
    rw [calculate_frer_latencies, List.length_zipWith]
  refine ⟨hlen, ?_⟩
  have hi : i < (calculate_frer_latencies path1 path2).length := by omega
  have h1 : i < path1.length := by omega
  have h2 : i < path2.length := by omega
  rw [List.getD_eq_getElem _ 0 hi, List.getD_eq_getElem _ 0 h1,
    List.getD_eq_getElem _ 0 h2]
  simp [calculate_frer_latencies]

/-- Witness for C5 amended at unequal-length inputs. -/
theorem frer_latencies_truncates_witness :
    (calculate_frer_latencies [5, 2, 3] [4]).length =
      min ([5, 2, 3] : List ℚ).length ([4] : List ℚ).length ∧
    (calculate_frer_latencies [5, 2, 3] [4]).getD 0 0 =
      min (([5, 2, 3] : List ℚ).getD 0 0) (([4] : List ℚ).getD 0 0) :=
  frer_latencies_truncates [5, 2, 3] [4] 0 (by norm_num)

/-!
Statistics engines.  Python statistics.mean, statistics.median and
statistics.stdev (sample standard deviation, n-1 denominator;
StatisticsError when fewer than two samples).  The square root applied to
the sample variance operates on floats and is not representable exactly
over ℚ, so the engines are parameterized by the square-root function;
every claim settled here concerns the guard around it, never its value.
-/

/-- Python statistics.mean of a nonempty list. -/
def pyMean (l : List ℚ) : ℚ := l.sum / l.length

/-- Python statistics.median: middle of the sorted samples, averaging the
two middles when the count is even. -/
def pyMedian (l : List ℚ) : ℚ :=
  let s := pySorted l
  let n := s.length
  if n % 2 = 1 then s.getD (n / 2) 0
  else (s.getD (n / 2 - 1) 0 + s.getD (n / 2) 0) / 2

/-- The sample variance with the n-1 denominator, the quantity whose
square root statistics.stdev returns. -/
def sampleVar (l : List ℚ) : ℚ :=
  (l.map (fun x => (x - pyMean l) ^ 2)).sum / ((l.length : ℚ) - 1)

/-- The latency statistics record of RFC2544Test.test_latency_icmp
(advanced_rfc2544_test.py lines 115-129). -/
structure LatencyStats where
  count : ℕ
  min : ℚ
  max : ℚ
  avg : ℚ
  median : ℚ
  stddev : ℚ
  p50 : ℚ
  p90 : ℚ
  p95 : ℚ
  p99 : ℚ
  p99_9 : ℚ
  jitter : ℚ

/-- The statistics computed by test_latency_icmp once latencies were
collected: stddev and jitter are the sample standard deviation guarded to
0 when only a single sample exists; the caller has already returned None
on an empty list.  sqrt abstracts the float square root. -/
def latencyStats (sqrt : ℚ → ℚ) (latencies : List ℚ) : Option LatencyStats :=
  if latencies = [] then none
  else some
    { count := latencies.length
      min := pyMin latencies
      max := pyMax latencies
      avg := pyMean latencies
      median := pyMedian latencies
      stddev := if 1 < latencies.length then sqrt (sampleVar latencies) else 0
      p50 := pyMedian latencies
      p90 := percentile latencies 90
      p95 := percentile latencies 95
      p99 := percentile latencies 99
      p99_9 := percentile latencies (999/10)
      jitter := if 1 < latencies.length then sqrt (sampleVar latencies) else 0 }

/-- calculate_stats of frer_comparison_analysis.py (lines 39-65): the
stdev call is unguarded, and Python statistics.stdev raises
StatisticsError for fewer than two samples, so the whole computation
fails there (modelled as none). -/
def calcStats (sqrt : ℚ → ℚ) (latencies : List ℚ) (label : String) :
    Option LatencyStats :=
  if latencies.length < 2 then none
  else some
    { count := latencies.length
      min := pyMin latencies
      max := pyMax latencies
      avg := pyMean latencies
      median := pyMedian latencies
      stddev := sqrt (sampleVar latencies)
      p50 := percentile latencies 50
      p90 := percentile latencies 90
      p95 := percentile latencies 95
      p99 := percentile latencies 99
      p99_9 := percentile latencies (999/10)
      jitter := sqrt (sampleVar latencies) }

/-- C9 counterexample: calculate_stats on a single sample does not return
stddev = jitter = 0; statistics.stdev raises, so the whole computation
fails (none), for every square-root function. -/
theorem calcStats_singleton_fails :
    calcStats (fun q => q) [5] "single" = none := rfl

/-- C9 amended: the advanced engine (test_latency_icmp) returns 0 for
both stddev and jitter on a single sample; calculate_stats of
frer_comparison_analysis.py instead fails on a single sample because its
statistics.stdev call is unguarded. -/
theorem singleton_stddev_zero (sqrt : ℚ → ℚ) (x : ℚ) (label : String) :
    (latencyStats sqrt [x]).map (fun st => st.stddev) = some 0 ∧
    (latencyStats sqrt [x]).map (fun st => st.jitter) = some 0 ∧
    calcStats sqrt [x] label = none := by
  refine ⟨?_, ?_, ?_⟩
  · rw [latencyStats, if_neg (by simp)]
    simp
  · rw [latencyStats, if_neg (by simp)]
    simp
  · rw [calcStats, if_pos (by simp)]

/-!
Burst capacity search: RFC2544ExtendedTest.back_to_back_test of
rfc2544_extended_test.py (lines 69-167).  best_burst is initialised once,
before the trial loop, and only ever raised with max; each trial scans
the hardcoded candidate sizes in ascending order and breaks at the first
candidate whose measured loss is at least 1.0 percent or whose probe
raises; each trial then records the current best_burst.  The final
max_burst_no_loss is min(trial results).  A probe maps (trial index,
burst size) to Option loss-rate; none models an exception in the send
path. -/

/-- The hardcoded candidate burst sizes scanned by every trial. -/
def testBursts : List ℕ := [100, 500, 1000, 2000, 5000, 10000]

/-- Whether a probe outcome counts as a passing burst (loss below 1.0,
the hard-coded threshold; an exception is not a pass). -/
def burstPass (probe : ℕ → ℕ → Option ℚ) (t b : ℕ) : Bool :=
  match probe t b with
  | none => false
  | some loss => decide (loss < 1)

/-- The inner loop of one trial: scan the burst sizes in order, raising
best with max on a pass and stopping at the first failure or exception. -/
def scanBursts (probe : ℕ → ℕ → Option ℚ) (t : ℕ) :
    List ℕ → ℕ → ℕ
  | [], best => best
  | b :: rest, best =>
    match probe t b with
    | none => best
    | some loss =>
      if loss < 1 then scanBursts probe t rest (max best b) else best

/-- The trial loop: numTrials trials starting at trial index t, carrying
best_burst across trials (it is initialised outside the loop in the
source); returns the per-trial recorded values. -/
def runTrialsFrom (probe : ℕ → ℕ → Option ℚ) :
    ℕ → ℕ → ℕ → List ℕ
  | _, 0, _ => []
  | t, n + 1, best =>
    let b2 := scanBursts probe t testBursts best
    b2 :: runTrialsFrom probe (t + 1) n b2

/-- Python min over a nonempty list of naturals. -/
def pyMinNat (l : List ℕ) : ℕ :=
  match l with
  | [] => 0
  | a :: xs => xs.foldl min a

/-- The per-trial results of back_to_back_test (num_trials = 3,
best_burst initialised to 0 before the trial loop). -/
def backToBackTrials (probe : ℕ → ℕ → Option ℚ) : List ℕ :=
  runTrialsFrom probe 0 3 0

/-- The reported max_burst_no_loss: min over the trial results. -/
def maxBurstNoLoss (probe : ℕ → ℕ → Option ℚ) : ℕ :=
  pyMinNat (backToBackTrials probe)

/-- The trial results as the spec describes them: each trial is an
independent run whose best starts at 0. -/
def backToBackTrialsSpec (probe : ℕ → ℕ → Option ℚ) : List ℕ :=
  (List.range 3).map (fun t => scanBursts probe t testBursts 0)

/-- A probe for which the shared best_burst is visible: trial 0 passes
the sizes up to 500 and fails at 1000; every later trial fails its very
first candidate. -/
def probeFirstTrialOnly : ℕ → ℕ → Option ℚ :=
  fun t b => if t = 0 ∧ b ≤ 500 then some 0 else some 5

/-- C6 counterexample: with a probe that passes sizes up to 500 in trial
0 and fails the first candidate of every later trial, the code records
[500, 500, 500] (best_burst is shared across trials) where independent
trials would record [500, 0, 0]; the reported minimum is 500 instead of
the 0 the claim's aggregation would give. -/
theorem back_to_back_trials_not_independent :
    backToBackTrials probeFirstTrialOnly = [500, 500, 500] ∧
    backToBackTrialsSpec probeFirstTrialOnly = [500, 0, 0] ∧
    maxBurstNoLoss probeFirstTrialOnly = 500 ∧
    pyMinNat (backToBackTrialsSpec probeFirstTrialOnly) = 0 := by
  refine ⟨?_, ?_, ?_, ?_⟩ <;> decide

theorem le_foldl_max_init_nat (c : ℕ) (l : List ℕ) : c ≤ l.foldl max c := by
  induction l generalizing c with
  | nil => exact le_refl c
  | cons b bs ih => exact le_trans (le_max_left c b) (ih (max c b))

theorem scanBursts_eq_takeWhile (probe : ℕ → ℕ → Option ℚ) (t : ℕ) :
    ∀ (bs : List ℕ) (best : ℕ),
      scanBursts probe t bs best =
        (bs.takeWhile (fun b => burstPass probe t b)).foldl max best := by
  intro bs
  induction bs with
  | nil => intro best; rfl
  | cons b rest ih =>
    intro best
    rw [scanBursts, List.takeWhile_cons]
    rcases hp : probe t b with _ | loss <;>
      simp only [burstPass, hp]
    · rfl
    · by_cases hl : loss < 1
      · rw [if_pos hl, if_pos (by simpa using hl), List.foldl_cons, ih]
        rfl
      · rw [if_neg hl, if_neg (by simpa using hl)]
        rfl

theorem best_le_scanBursts (probe : ℕ → ℕ → Option ℚ) (t : ℕ)
    (bs : List ℕ) (best : ℕ) : best ≤ scanBursts probe t bs best := by
  rw [scanBursts_eq_takeWhile]
  exact le_foldl_max_init_nat _ _

/-- C6 amended: each trial scans the candidate sizes in ascending order
and stops at the first candidate whose loss reaches 1.0 percent (or whose
probe raises), but best_burst is shared across the trials: each trial
records the largest passing size tested in any trial so far (the scan of
the candidate prefix folded with max into the carried best), the recorded
results are nondecreasing across trials, and the reported
max_burst_no_loss = min(trial results) is therefore the first trial's
value, not an independent worst trial. -/
theorem back_to_back_shared_best (probe : ℕ → ℕ → Option ℚ) :
    (∀ (t : ℕ) (bs : List ℕ) (best : ℕ),
      scanBursts probe t bs best =
        (bs.takeWhile (fun b => burstPass probe t b)).foldl max best) ∧
    backToBackTrials probe =
      [scanBursts probe 0 testBursts 0,
       scanBursts probe 1 testBursts (scanBursts probe 0 testBursts 0),
       scanBursts probe 2 testBursts
         (scanBursts probe 1 testBursts (scanBursts probe 0 testBursts 0))] ∧
    List.Chain' (· ≤ ·) (backToBackTrials probe) ∧
    maxBurstNoLoss probe = scanBursts probe 0 testBursts 0 := by
  have h12 : scanBursts probe 0 testBursts 0 ≤
      scanBursts probe 1 testBursts (scanBursts probe 0 testBursts 0) :=
    best_le_scanBursts probe 1 testBursts _
  have h23 : scanBursts probe 1 testBursts (scanBursts probe 0 testBursts 0) ≤
      scanBursts probe 2 testBursts
        (scanBursts probe 1 testBursts (scanBursts probe 0 testBursts 0)) :=
    best_le_scanBursts probe 2 testBursts _
  have htrials : backToBackTrials probe =
      [scanBursts probe 0 testBursts 0,
       scanBursts probe 1 testBursts (scanBursts probe 0 testBursts 0),
       scanBursts probe 2 testBursts
         (scanBursts probe 1 testBursts (scanBursts probe 0 testBursts 0))] := rfl
  refine ⟨scanBursts_eq_takeWhile probe, htrials, ?_, ?_⟩
  · rw [htrials]
    exact List.chain'_cons.mpr ⟨h12, List.chain'_cons.mpr ⟨h23,
      List.chain'_singleton _⟩⟩
  · rw [maxBurstNoLoss, htrials, pyMinNat]
    dsimp only [List.foldl]
    omega
